import Mathlib

/-!
Verification of the VocabLevels repository: a shallow embedding of the
lemma-level CSV tooling (`vocab_manager.py`, `fix_b2.py`, `fix_csvs.py`,
`fix_capitalization.py`, `sync_a2_with_goethe.py`, `check_quality_v2.py`)
together with theorems settling the specification claims.

Strings are modelled with Lean `String` (logically a list of characters).
Python's `str.lower` / `str.upper` are modelled on the character repertoire
this vocabulary actually uses (ASCII letters plus ä/ö/ü/ß); in particular
Python's `'ß'.upper() == 'SS'` is modelled faithfully.
-/

/-- Uppercase-to-lowercase character table: ASCII A–Z plus Ä/Ö/Ü,
mirroring Python `str.lower` on the German character repertoire. -/
def upperToLower : List (Char × Char) :=
  [('A','a'), ('B','b'), ('C','c'), ('D','d'), ('E','e'), ('F','f'), ('G','g'),
   ('H','h'), ('I','i'), ('J','j'), ('K','k'), ('L','l'), ('M','m'), ('N','n'),
   ('O','o'), ('P','p'), ('Q','q'), ('R','r'), ('S','s'), ('T','t'), ('U','u'),
   ('V','v'), ('W','w'), ('X','x'), ('Y','y'), ('Z','z'),
   ('Ä','ä'), ('Ö','ö'), ('Ü','ü')]

/-- Lowercase-to-uppercase character table: ASCII a–z plus ä/ö/ü.
The character 'ß' is handled separately (`pyUpperCharStr`), because Python
upcases it to the two-character string "SS". -/
def lowerToUpper : List (Char × Char) :=
  [('a','A'), ('b','B'), ('c','C'), ('d','D'), ('e','E'), ('f','F'), ('g','G'),
   ('h','H'), ('i','I'), ('j','J'), ('k','K'), ('l','L'), ('m','M'), ('n','N'),
   ('o','O'), ('p','P'), ('q','Q'), ('r','R'), ('s','S'), ('t','T'), ('u','U'),
   ('v','V'), ('w','W'), ('x','X'), ('y','Y'), ('z','Z'),
   ('ä','Ä'), ('ö','Ö'), ('ü','Ü')]

/-- Model of Python `c.lower()` for a single character. -/
def pyLowerChar (c : Char) : Char :=
  match upperToLower.find? (fun p => p.1 == c) with
  | some p => p.2
  | none => c

/-- Model of Python `c.upper()` for a single character other than 'ß'. -/
def pyUpperChar (c : Char) : Char :=
  match lowerToUpper.find? (fun p => p.1 == c) with
  | some p => p.2
  | none => c

/-- Model of Python `c.upper()` for a single character, as a string:
'ß' upcases to the two-character string "SS". -/
def pyUpperCharStr (c : Char) : String :=
  if c = 'ß' then "SS" else String.mk [pyUpperChar c]

/-- Model of Python `s.lower()`. -/
def pyLower (s : String) : String :=
  String.mk (s.data.map pyLowerChar)

/-- Characters stripped by Python `str.strip()` with no argument. -/
def isPySpace (c : Char) : Bool :=
  c == ' ' || c == '\t' || c == '\n' || c == '\r' ||
  c == Char.ofNat 11 || c == Char.ofNat 12

/-- Model of Python `s.strip()`. -/
def pyStrip (s : String) : String :=
  String.mk (((s.data.dropWhile isPySpace).reverse.dropWhile isPySpace).reverse)

/-- Substring test on character lists (Python `pat in s`). -/
def hasInfixL (pat : List Char) : List Char → Bool
  | [] => pat.isEmpty
  | c :: rest => pat.isPrefixOf (c :: rest) || hasInfixL pat rest

/-- Substring test on strings (Python `pat in s`). -/
def hasInfixStr (s pat : String) : Bool :=
  hasInfixL pat.data s.data

/-- Model of Python `s.endswith(suffix)`. -/
def strEndsWith (s suffix : String) : Bool :=
  suffix.data.isSuffixOf s.data

/-- Model of Python `s.startswith(pre)`. -/
def strStartsWith (s pre : String) : Bool :=
  pre.data.isPrefixOf s.data

/-- Model of Python `s[:-n]` for `n ≥ 1`. -/
def strDropLast (s : String) (n : Nat) : String :=
  String.mk (s.data.take (s.data.length - n))

/-- Fueled worker for `strReplace`.  With fuel at least the length of the
scanned list it performs Python's left-to-right, non-overlapping
replace-all; each successful match consumes at least one character, so the
fuel-exhaustion branch is never taken on the initial call. -/
def replaceFuel (pat rep : List Char) : Nat → List Char → List Char
  | 0, l => l
  | _ + 1, [] => []
  | f + 1, x :: xs =>
    if !pat.isEmpty && pat.isPrefixOf (x :: xs) then
      rep ++ replaceFuel pat rep f ((x :: xs).drop pat.length)
    else
      x :: replaceFuel pat rep f xs

/-- Model of Python `s.replace(pat, rep)` (for nonempty `pat`). -/
def strReplace (s pat rep : String) : String :=
  String.mk (replaceFuel pat.data rep.data s.data.length s.data)

/-- Model of Python `s.split(c)` on character lists: the returned list of
segments is nonempty and the separator occurs in no segment. -/
def splitChar (c : Char) : List Char → List (List Char)
  | [] => [[]]
  | x :: xs =>
    if x = c then [] :: splitChar c xs
    else
      match splitChar c xs with
      | [] => [[x]]
      | s :: rest => (x :: s) :: rest

/-- Model of Python `c.join(segments)` on character lists. -/
def joinChar (c : Char) : List (List Char) → List Char
  | [] => []
  | [s] => s
  | s :: rest => s ++ c :: joinChar c rest

/-- Stable insertion into a list sorted by the boolean relation `le`. -/
def insertLe {α : Type} (le : α → α → Bool) (x : α) : List α → List α
  | [] => [x]
  | y :: ys => if le x y then x :: y :: ys else y :: insertLe le x ys

/-- Insertion sort by the boolean relation `le`; used to model the
sorting performed by `pandas.sort_values` and Python `sorted`.  The claims
only depend on the sorted list being a permutation of the input. -/
def sortLe {α : Type} (le : α → α → Bool) (l : List α) : List α :=
  l.foldr (insertLe le) []

/-- Lexicographic (code-point) comparison of character lists, as Python
string `<=`. -/
def leChars : List Char → List Char → Bool
  | [], _ => true
  | _ :: _, [] => false
  | a :: as, b :: bs =>
    if a.toNat < b.toNat then true
    else if a.toNat = b.toNat then leChars as bs
    else false

/-!
Embedding of `fix_capitalization.py`.
-/
/-- The `LOWERCASE_PATTERNS` list of `fix_capitalization.py`, in source
order. -/
def LOWERCASE_PATTERNS : List String :=
  ["ab", "aber", "abfahren", "abfliegen", "abgeben", "abholen", "abschließen",
   "aktiv", "aktuell", "alle", "allein", "alles", "als", "also", "alt",
   "an", "anbieten", "anderen", "anders", "anfangen", "ankommen", "anrufen",
   "antworten", "arbeiten", "auch", "auf", "aus", "bei", "bekannt", "bestellen",
   "bis", "bleiben", "brauchen", "bringen", "da", "dabei", "dafür", "dagegen",
   "dann", "daran", "darauf", "darüber", "darum", "dass", "dazu", "dein",
   "dem", "den", "der", "deshalb", "deutlich", "dich", "die", "dies", "dir",
   "doch", "dort", "dran", "drauf", "drinnen", "drüber", "du", "dumm", "dunkel",
   "dünn", "durch", "dürfen", "echt", "ehren", "eigen", "eigentlich", "ein",
   "einig", "einpacken", "eintragen", "einverstanden", "er", "erkältet",
   "erlaubt", "es", "essen", "euer", "fahren", "fallen", "fertig", "finden",
   "fit", "fragen", "frei", "früher", "fühlen", "für", "geben", "geehrte",
   "gehen", "gern", "gestern", "gültig", "gut", "haben", "halten", "hängen",
   "heiß", "helfen", "her", "heute", "hier", "hin", "hinein", "hören",
   "ich", "ihr", "im", "immer", "in", "interessieren", "ist", "ja", "jeder",
   "jemand", "jetzt", "jung", "kalt", "kaufen", "kennen", "klein", "kommen",
   "können", "kümmern", "kurz", "lang", "lassen", "laufen", "leben", "legen",
   "lesen", "lieben", "liegen", "machen", "mal", "man", "mehr", "mein",
   "meinen", "mit", "möchten", "mögen", "müssen", "nach", "nächste", "nah",
   "nehmen", "nein", "neu", "nicht", "nichts", "noch", "nötig", "nur",
   "ob", "oben", "oder", "oft", "ohne", "passen", "recht", "richtig", "rufen",
   "sagen", "schauen", "scheinen", "schenken", "schicken", "schlafen", "schlecht",
   "schließlich", "schneiden", "schnell", "schön", "schreiben", "schwer", "sehen",
   "sehr", "sein", "seit", "setzen", "sich", "sie", "sitzen", "so", "sollen",
   "sondern", "spät", "spazieren", "spielen", "sprechen", "stehen", "stellen",
   "streiten", "tragen", "treffen", "trinken", "tun", "über", "um", "umziehen",
   "und", "uns", "unser", "unter", "unterhalten", "unterwegs", "verabredet",
   "verboten", "vereinbaren", "verletzen", "verlieben", "verstehen", "viel",
   "vom", "von", "vor", "vorstellen", "wann", "warm", "warten", "warum", "was",
   "waschen", "weg", "wegen", "weh", "weiterhelfen", "welcher", "wenig", "wenn",
   "wer", "werden", "wichtig", "wie", "wieder", "windig", "wir", "wissen", "wo",
   "wohnen", "wollen", "woher", "wohin", "zu", "zurück", "zurückfahren",
   "zurückgeben", "zurückgehen", "zurückkommen", "zurücklaufen", "zusammen",
   "ändern", "ärgern", "überweisen"]

/-- `LOWERCASE_SET = {word.lower() for word in LOWERCASE_PATTERNS}`. -/
def LOWERCASE_SET : List String := LOWERCASE_PATTERNS.map pyLower

/-- Embedding of `should_be_lowercase` from `fix_capitalization.py`.
Note the suffix tuples are transcribed verbatim from the source, hyphens
included: `word_lower.endswith(('-en', '-ern', '-ieren'))` and
`word_lower.endswith(('-er', '-ste', '-st'))`. -/
def should_be_lowercase (word : String) : Bool :=
  let word_lower := pyLower word
  if LOWERCASE_SET.contains word_lower then true
  else if hasInfixStr word_lower "sich-" then true
  else if strEndsWith word_lower "-en" || strEndsWith word_lower "-ern" ||
      strEndsWith word_lower "-ieren" then true
  else if (strEndsWith word_lower "-er" || strEndsWith word_lower "-ste" ||
      strEndsWith word_lower "-st") && decide (word.length > 4) then
    LOWERCASE_SET.contains
      (if strEndsWith word_lower "er" then strDropLast word_lower 2
       else strDropLast word_lower 3)
  else false

/-- Python `word[0].upper() + word[1:].lower() if len(word) > 1 else
word.upper()` (the noun-capitalisation branch of `fix_capitalization`);
for a one-character word both expressions equal the upper-case of that
character, and for the empty word `word.upper()` is empty. -/
def capWord (word : String) : String :=
  match word.data with
  | [] => ""
  | c :: rest => pyUpperCharStr c ++ pyLower (String.mk rest)

/-- The final two branches of `fix_capitalization` (the word contains
neither '-' nor '_').  The source's recursive call on `parts[0]` of an
underscore-split always lands here, because the hyphen test precedes the
underscore test and the first split segment contains neither separator. -/
def fixCapCore (word : String) : String :=
  if should_be_lowercase word then pyLower word else capWord word

/-- Embedding of `fix_capitalization` from `fix_capitalization.py`.
The source recurses on `parts[0]` of `word.split('_')`; as the recursive
call can only reach the two suffix branches (`fixCapCore`), it is inlined
(see `fix_capitalization_underscore_eq` for the recursive equation). -/
def fix_capitalization (word : String) : String :=
  if hasInfixStr word "-" then
    if strStartsWith (pyLower word) "sich-" then pyLower word else word
  else if hasInfixStr word "_" then
    match splitChar '_' word.data with
    | [] => word
    | p :: rest => String.mk (joinChar '_' ((fixCapCore (String.mk p)).data :: rest))
  else fixCapCore word

/-!
Embedding of `restore_umlauts` from `fix_csvs.py`.
-/
/-- The `replacements` list of `restore_umlauts`, in source order. -/
def replacements : List (String × String) :=
  [("ae", "ä"), ("ue", "ü"), ("oe", "ö"), ("ss", "ß")]

/-- One pass of the candidate-generation loop: for each existing candidate,
keep it, and if it contains the digraph `o` also append the result of
replacing every occurrence of `o` by `n` (Python `str.replace` replaces
all occurrences). -/
def genStep (o n : String) : List String → List String
  | [] => []
  | cand :: rest =>
    if hasInfixStr cand o then
      cand :: strReplace cand o n :: genStep o n rest
    else
      cand :: genStep o n rest

/-- The candidate list generated by `restore_umlauts` for a word. -/
def candidatesOf (word : String) : List String :=
  replacements.foldl (fun cs p => genStep p.1 p.2 cs) [word]

/-- Python `cand[0].upper() + cand[1:] if cand else cand`. -/
def pyCapFirst (s : String) : String :=
  match s.data with
  | [] => s
  | c :: rest => pyUpperCharStr c ++ String.mk rest

/-- The membership-check loop of `restore_umlauts`: the first candidate
found in the master set, either exactly or with its first letter
upper-cased (in which case the capitalised form is returned). -/
def lookupCand : List String → Finset String → Option String
  | [], _ => none
  | cand :: rest, master =>
    if cand ∈ master then some cand
    else if pyCapFirst cand ∈ master then some (pyCapFirst cand)
    else lookupCand rest master

/-- Embedding of `restore_umlauts` from `fix_csvs.py`. -/
def restore_umlauts (word : String) (master_set : Finset String) : String :=
  (lookupCand (candidatesOf word) master_set).getD word

/-- One optional all-occurrence digraph substitution (the shape of the
candidates `genStep` adds). -/
def applyRep (w : String) (o n : String) (b : Bool) : String :=
  if b && hasInfixStr w o then strReplace w o n else w

/-- Substituting all occurrences of each digraph type of a chosen subset,
in the generation order ae, ue, oe, ss. -/
def applyPicks (w : String) (b1 b2 b3 b4 : Bool) : String :=
  applyRep (applyRep (applyRep (applyRep w "ae" "ä" b1) "ue" "ü" b2)
    "oe" "ö" b3) "ss" "ß" b4

/-!
Embedding of `vocab_manager.py`.
-/
/-- The five CEFR levels (`LEVELS` in `vocab_manager.py`). -/
inductive Level where
  | A1
  | A2
  | B1
  | B2
  | C1
deriving DecidableEq, Fintype

/-- `LEVELS`, in source order. -/
def LEVELS : List Level := [Level.A1, Level.A2, Level.B1, Level.B2, Level.C1]

/-- One CSV row: (German_Lemma, Spanish_Translation). -/
abbrev Row := String × String

/-- The in-memory state of `VocabManager`: the rows of each level's CSV. -/
structure VState where
  a1 : List Row
  a2 : List Row
  b1 : List Row
  b2 : List Row
  c1 : List Row
deriving DecidableEq

/-- The dataframe of a level. -/
def VState.rows (s : VState) : Level → List Row
  | Level.A1 => s.a1
  | Level.A2 => s.a2
  | Level.B1 => s.b1
  | Level.B2 => s.b2
  | Level.C1 => s.c1

/-- Replace the dataframe of a level. -/
def VState.setRows (s : VState) (l : Level) (rs : List Row) : VState :=
  match l with
  | Level.A1 => { s with a1 := rs }
  | Level.A2 => { s with a2 := rs }
  | Level.B1 => { s with b1 := rs }
  | Level.B2 => { s with b2 := rs }
  | Level.C1 => { s with c1 := rs }

/-- The German_Lemma column of a level. -/
def lemmasOf (s : VState) (l : Level) : List String :=
  (s.rows l).map Prod.fst

/-- Row comparison by German_Lemma (the `sort_values(by='German_Lemma')`
key). -/
def rowLe (r1 r2 : Row) : Bool :=
  leChars r1.1.data r2.1.data

/-- The level re-sorting done on the `add_word` success path. -/
def sortRows : List Row → List Row :=
  sortLe rowLe

/-- Embedding of `VocabManager.find_word`: the levels containing the word,
in `LEVELS` order. -/
def find_word (s : VState) (word : String) : List Level :=
  LEVELS.filter (fun l => (lemmasOf s l).contains word)

/-- Embedding of `VocabManager.add_word`.  The source builds `new_row`
but never concatenates it to the level's dataframe: on the success path
it only re-sorts the existing rows and saves. -/
def add_word (s : VState) (level : Level) (word translation : String) :
    VState :=
  if find_word s word ≠ [] then s
  else if word.data.contains ' ' then s
  else s.setRows level (sortRows (s.rows level))

/-- The body of the `remove_word` loop for one level. -/
def removeStep (word : String) (st : VState) (l : Level) : VState :=
  if (lemmasOf st l).contains word then
    st.setRows l ((st.rows l).filter (fun r => r.1 != word))
  else st

/-- Embedding of `VocabManager.remove_word`: drops the word from every
level containing it. -/
def remove_word (s : VState) (word : String) : VState :=
  LEVELS.foldl (removeStep word) s

/-- Embedding of `VocabManager.move_word`: looks the word up, reads the
translation from the first level containing it, aborts when the word is
absent or already in the target, otherwise removes it everywhere and
calls `add_word` on the target.  In the source the translation (the
first matching row of the first level found) is read into a local before
the target check; the computation is pure, so it is inlined at its use
site. -/
def move_word (s : VState) (word : String) (target : Level) : VState :=
  match find_word s word with
  | [] => s
  | current :: _ =>
    if (find_word s word).contains target then s
    else
      add_word (remove_word s word) target word
        (((((s.rows current).filter (fun r => r.1 == word)).head?).map
          Prod.snd).getD "")

/-- The Mutation API operations of the spec: `add`, `remove`, `move`. -/
inductive MutOp where
  | add : Level → String → String → MutOp
  | remove : String → MutOp
  | move : String → Level → MutOp

/-- Apply one Mutation API operation. -/
def applyOp (s : VState) : MutOp → VState
  | MutOp.add l w t => add_word s l w t
  | MutOp.remove w => remove_word s w
  | MutOp.move w l => move_word s w l

/-- Apply a sequence of Mutation API operations. -/
def runOps (s : VState) (ops : List MutOp) : VState :=
  ops.foldl applyOp s

/-- Pairwise disjointness of the five levels' lemma sets. -/
def pairwiseDisjoint (s : VState) : Prop :=
  ∀ l1 l2 : Level, l1 ≠ l2 → ∀ w ∈ lemmasOf s l1, w ∉ lemmasOf s l2

/-- Boolean decision procedure for `pairwiseDisjoint`. -/
def pairwiseDisjointB (s : VState) : Bool :=
  LEVELS.all (fun l1 => LEVELS.all (fun l2 =>
    l1 == l2 || (lemmasOf s l1).all (fun w => decide (w ∉ lemmasOf s l2))))

instance (s : VState) : Decidable (pairwiseDisjoint s) :=
  decidable_of_iff (pairwiseDisjointB s = true) (by
    have hlv : ∀ l : Level, l ∈ LEVELS := by
      intro l
      cases l <;> simp [LEVELS]
    unfold pairwiseDisjointB pairwiseDisjoint
    simp only [List.all_eq_true, Bool.or_eq_true, beq_iff_eq,
      decide_eq_true_eq]
    constructor
    · intro h l1 l2 hne w hw1
      rcases h l1 (hlv l1) l2 (hlv l2) with heq | hall
      · exact absurd heq hne
      · exact hall w hw1
    · intro h l1 _ l2 _
      by_cases heq : l1 = l2
      · exact Or.inl heq
      · exact Or.inr (fun w hw => h l1 l2 heq w hw))

/-!
Embedding of `fix_b2` from `fix_b2.py`.
-/
/-- `should_be_b2 = master - a1 - a2 - b1 - c1`. -/
def b2Target (master a1 a2 b1 c1 : Finset String) : Finset String :=
  (((master \ a1) \ a2) \ b1) \ c1

/-- Embedding of `fix_b2`: keeps exactly the prior B2 rows whose lemma is
in the target set (translations preserved), sorts them, writes them, then
verifies the written membership against the target and returns exit code
0 on success and 1 on failure.  The `to_remove` analysis in the source
only prints and does not affect the result. -/
def fix_b2 (master a1 a2 b1 c1 : Finset String) (b2rows : List Row) :
    List Row × Nat :=
  let should_be_b2 := b2Target master a1 a2 b1 c1
  let new_b2 := sortRows (b2rows.filter (fun r => decide (r.1 ∈ should_be_b2)))
  (new_b2, if (new_b2.map Prod.fst).toFinset = should_be_b2 then 0 else 1)

/-!
Embedding of `sync_a2_with_goethe.py` (the merge against an external
authoritative word list).
-/
/-- `PLACEHOLDER_PREFIX` from `sync_a2_with_goethe.py`. -/
def PLACEHOLDER_PREFIX : String := "[TODO"

/-- The `current_a2` dictionary: keyed by `row['German_Lemma'].strip()
.lower()`, comprehension semantics (a later row with the same key wins). -/
def lookupA2 (rows : List Row) (k : String) : Option Row :=
  rows.foldl (fun acc r => if pyLower (pyStrip r.1) == k then some r else acc)
    none

/-- Comparison key of `sorted(goethe_words, key=str.lower)`. -/
def strKeyLe (a b : String) : Bool :=
  leChars (pyLower a).data (pyLower b).data

/-- The output row produced for one word of the external list: keep the
stored translation (stripped) when it is nonempty and not a placeholder,
under the external list's capitalisation; otherwise an empty translation. -/
def goetheRow (a2rows : List Row) (gw : String) : Row :=
  match lookupA2 a2rows (pyLower gw) with
  | some row =>
    if pyStrip row.2 != "" &&
        !(strStartsWith (pyStrip row.2) PLACEHOLDER_PREFIX) then
      (gw, pyStrip row.2)
    else (gw, "")
  | none => (gw, "")

/-- Embedding of the `main` loop of `sync_a2_with_goethe.py` that builds
`new_a2` from the sorted external word list. -/
def sync_a2_with_goethe (goethe : List String) (a2rows : List Row) :
    List Row :=
  (sortLe strKeyLe goethe).foldl (fun new_a2 gw =>
    match lookupA2 a2rows (pyLower gw) with
    | some row =>
      if pyStrip row.2 != "" &&
          !(strStartsWith (pyStrip row.2) PLACEHOLDER_PREFIX) then
        new_a2 ++ [(gw, pyStrip row.2)]
      else new_a2 ++ [(gw, "")]
    | none => new_a2 ++ [(gw, "")]) []

/-!
Embedding of the validator of `check_quality_v2.py`.
-/
/-- `ENGLISH_STOPWORDS` from `check_quality_v2.py`, in source order. -/
def ENGLISH_STOPWORDS : List String :=
  ["the", "and", "of", "to", "in", "is", "you", "that", "it", "he", "was",
   "for", "on", "are", "as", "with", "his", "they", "i", "at", "be", "this",
   "have", "from", "or", "one", "had", "by", "word", "but", "not", "what",
   "all", "were", "we", "when", "your", "can", "said", "there", "use", "an",
   "each", "which", "she", "do", "how", "their", "if", "will", "up", "other",
   "about", "out", "many", "then", "them", "these", "so", "some", "her",
   "would", "make", "like", "him", "into", "time", "has", "look", "two",
   "more", "write", "go", "see", "number", "no", "way", "could", "people",
   "my", "than", "first", "water", "been", "call", "who", "oil", "its",
   "now", "find"]

/-- `VALID_SHORT` from `check_quality_v2.py`. -/
def VALID_SHORT : List String :=
  ["da", "du", "er", "es", "ja", "ne", "so", "wo", "zu", "ab", "an", "im",
   "in", "ob", "um", "ei", "po"]

/-- The `valid_homographs` exemption set of `check_quality_v2.py`, in
source order (duplicate entries kept as in the source). -/
def VALID_HOMOGRAPHS : List String :=
  ["in", "an", "so", "im", "die", "das", "der", "den", "dem", "des",
   "art", "bad", "bar", "boot", "elf", "hut", "kind", "rat", "rot",
   "tag", "war", "wer", "wo", "nun", "man", "fast", "rot", "fest", "rock",
   "mist", "gift", "hand", "wand", "wind", "arm", "bank", "bitten", "bring",
   "brutal", "bunker", "bus", "butter", "chef", "chin", "club", "cool",
   "deck", "finger", "fucking", "gang", "gas", "general", "gold", "grab",
   "grass", "gut", "halt", "hammer", "hier", "hose", "hund", "hut", "ideal",
   "kinn", "land", "last", "lied", "links", "list", "machen", "macht",
   "mail", "mama", "mann", "mark", "mast", "matt", "me", "meer", "mehl",
   "mein", "mich", "mild", "moment", "mond", "mond", "moor", "mord", "most",
   "musk", "muss", "mutter", "nach", "name", "nape", "nein", "nest", "nett",
   "neun", "news", "nie", "not", "nun", "nur", "nuss", "nut", "paar",
   "pack", "pan", "park", "part", "pass", "pause", "plan", "plus", "po",
   "post", "pro", "punk", "pure", "qualm", "quiz", "radio", "rang", "rank",
   "rate", "ratte", "raum", "raw", "rede", "rein", "reis", "reise", "reit",
   "rest", "ring", "rock", "roh", "roll", "rom", "rost", "ruf", "rund",
   "sage", "sake", "salz", "sand", "sang", "sank", "satin", "satt", "satz",
   "sau", "schmal", "schur", "see", "sehr", "sein", "send", "set", "shame",
   "sink", "sofa", "sohn", "sold", "solo", "span", "spar", "spat", "speck",
   "spin", "spit", "sport", "spot", "spur", "sputter", "stab", "sack",
   "sage", "sake", "sale", "salt", "same", "sand", "sane", "sang", "sank",
   "sate", "save", "saw", "scam", "scan", "scar", "scat", "school", "scum",
   "sea", "seal", "seam", "seat", "sect", "see", "seed", "seek", "seem",
   "seen", "seep", "self", "sell", "send", "sent", "set", "sew", "shack",
   "shad", "ag", "akt", "angel", "bald", "ball", "band", "bang"]

/-- The special-character class of check 3
(`[?!@#$%^&*()_=+\[\]{};:'"\\|<>~` + backtick + `.]`); the characters
that the banned-token rules make awkward to quote are written with
`Char.ofNat`. -/
def SPECIAL_CHARS : List Char :=
  ['?', '!', '@', '#', '$', '%', '^', '&', '*', '(', ')', '_', '=', '+',
   '[', ']', Char.ofNat 123, Char.ofNat 125, ';', ':', Char.ofNat 39,
   Char.ofNat 34, Char.ofNat 92, '|', '<', '>', '~', Char.ofNat 96, '.']

/-- Python `c.islower()` on the German character repertoire. -/
def pyIsLower (c : Char) : Bool :=
  (97 ≤ c.toNat && c.toNat ≤ 122) || c == 'ä' || c == 'ö' || c == 'ü' ||
    c == 'ß'

/-- The per-row checks 1–7 of `check_quality` in `check_quality_v2.py`,
on the already-stripped lemma and translation; returns the reasons of
the issues appended for this row, in source order. -/
def rowIssuesCore (lem trans : String) (master : Finset String) :
    List String :=
  if lem = "" ∨ lem = "nan" then ["Empty Lemma"]
  else
    (if lem.length < 2 ∧ pyLower lem ∉ VALID_SHORT then
      ["Too short (Garbage?)"] else [])
    ++ (if lem.data.any Char.isDigit then ["Contains Numbers"] else [])
    ++ (if lem.data.any (fun c => SPECIAL_CHARS.contains c) then
      ["Contains Special Chars"] else [])
    ++ (if pyLower lem ∈ ENGLISH_STOPWORDS ∧
          pyLower lem ∉ VALID_HOMOGRAPHS ∧ lem ∉ master then
      ["Possible English Word"] else [])
    ++ (if trans = "" ∨ trans = "nan" then ["MISSING TRANSLATION"] else [])
    ++ (if (match lem.data with
          | [] => false
          | c :: _ => pyIsLower c) = true ∧ lem ∉ master then
      ["Lowercase Lemma (Not in Master)"] else [])
    ++ (if (hasInfixStr lem "ae" || hasInfixStr lem "ue" ||
          hasInfixStr lem "oe") = true ∧ lem ∉ master then
      ["Potential Umlaut Replacement (ae/ue/oe)"] else [])

/-- The per-row checks applied to the raw CSV fields: the loop strips
both fields first (`str(row[...]).strip()`). -/
def rowIssues (rawLemma rawTrans : String) (master : Finset String) :
    List String :=
  rowIssuesCore (pyStrip rawLemma) (pyStrip rawTrans) master

-- Theorems.

-- Basic lemmas about the primitives.
theorem mk_data (s : String) : String.mk s.data = s := by
  cases s; rfl

theorem strDataEq {a b : String} (h : a.data = b.data) : a = b := by
  have h2 := congrArg String.mk h
  rwa [mk_data, mk_data] at h2

theorem upperToLower_snd_fixed :
    ∀ p ∈ upperToLower, pyLowerChar p.2 = p.2 := by decide

theorem lowerToUpper_snd_fixed :
    ∀ p ∈ lowerToUpper, pyUpperChar p.2 = p.2 := by decide

theorem lowerToUpper_lower_snd :
    ∀ p ∈ lowerToUpper, pyLowerChar p.2 = pyLowerChar p.1 := by decide

theorem pyLowerChar_idem (c : Char) :
    pyLowerChar (pyLowerChar c) = pyLowerChar c := by
  cases h : upperToLower.find? (fun p => p.1 == c) with
  | none =>
    have h1 : pyLowerChar c = c := by unfold pyLowerChar; rw [h]
    rw [h1, h1]
  | some p =>
    have hm : p ∈ upperToLower := List.mem_of_find?_eq_some h
    have h1 : pyLowerChar c = p.2 := by unfold pyLowerChar; rw [h]
    rw [h1]
    exact upperToLower_snd_fixed p hm

theorem pyUpperChar_idem (c : Char) :
    pyUpperChar (pyUpperChar c) = pyUpperChar c := by
  cases h : lowerToUpper.find? (fun p => p.1 == c) with
  | none =>
    have h1 : pyUpperChar c = c := by unfold pyUpperChar; rw [h]
    rw [h1, h1]
  | some p =>
    have hm : p ∈ lowerToUpper := List.mem_of_find?_eq_some h
    have h1 : pyUpperChar c = p.2 := by unfold pyUpperChar; rw [h]
    rw [h1]
    exact lowerToUpper_snd_fixed p hm

theorem pyLowerChar_pyUpperChar (c : Char) :
    pyLowerChar (pyUpperChar c) = pyLowerChar c := by
  cases h : lowerToUpper.find? (fun p => p.1 == c) with
  | none =>
    have h1 : pyUpperChar c = c := by unfold pyUpperChar; rw [h]
    rw [h1]
  | some p =>
    have hm : p ∈ lowerToUpper := List.mem_of_find?_eq_some h
    have hp : p.1 = c := by
      have := List.find?_some h
      simpa using this
    have h1 : pyUpperChar c = p.2 := by unfold pyUpperChar; rw [h]
    rw [h1, lowerToUpper_lower_snd p hm, hp]

theorem pyLowerChar_eq_self_or_mem (c : Char) :
    pyLowerChar c = c ∨ pyLowerChar c ∈ upperToLower.map Prod.snd := by
  cases h : upperToLower.find? (fun p => p.1 == c) with
  | none =>
    left; unfold pyLowerChar; rw [h]
  | some p =>
    right
    have hm : p ∈ upperToLower := List.mem_of_find?_eq_some h
    have h1 : pyLowerChar c = p.2 := by unfold pyLowerChar; rw [h]
    rw [h1]
    exact List.mem_map_of_mem Prod.snd hm

theorem pyUpperChar_eq_self_or_mem (c : Char) :
    pyUpperChar c = c ∨ pyUpperChar c ∈ lowerToUpper.map Prod.snd := by
  cases h : lowerToUpper.find? (fun p => p.1 == c) with
  | none =>
    left; unfold pyUpperChar; rw [h]
  | some p =>
    right
    have hm : p ∈ lowerToUpper := List.mem_of_find?_eq_some h
    have h1 : pyUpperChar c = p.2 := by unfold pyUpperChar; rw [h]
    rw [h1]
    exact List.mem_map_of_mem Prod.snd hm

theorem pyLowerChar_dash_underscore {c d : Char}
    (hd : d = '-' ∨ d = '_') (h : pyLowerChar c = d) : c = d := by
  rcases pyLowerChar_eq_self_or_mem c with h1 | h1
  · rw [← h, h1]
  · exfalso
    rw [h] at h1
    rcases hd with rfl | rfl <;> revert h1 <;> decide

theorem pyUpperChar_dash_underscore {c d : Char}
    (hd : d = '-' ∨ d = '_') (h : pyUpperChar c = d) : c = d := by
  rcases pyUpperChar_eq_self_or_mem c with h1 | h1
  · rw [← h, h1]
  · exfalso
    rw [h] at h1
    rcases hd with rfl | rfl <;> revert h1 <;> decide

theorem pyUpperChar_eq_ssharp {c : Char} (h : pyUpperChar c = 'ß') :
    c = 'ß' := by
  rcases pyUpperChar_eq_self_or_mem c with h1 | h1
  · rw [← h, h1]
  · exfalso
    rw [h] at h1
    revert h1; decide

theorem pyLowerChar_eq_ssharp {c : Char} (h : pyLowerChar c = 'ß') :
    c = 'ß' := by
  rcases pyLowerChar_eq_self_or_mem c with h1 | h1
  · rw [← h, h1]
  · exfalso
    rw [h] at h1
    revert h1; decide

theorem pyLowerL_idem (l : List Char) :
    (l.map pyLowerChar).map pyLowerChar = l.map pyLowerChar := by
  induction l with
  | nil => rfl
  | cons c cs ih => simp [List.map, pyLowerChar_idem, ih]

theorem pyLower_idem (s : String) : pyLower (pyLower s) = pyLower s := by
  apply strDataEq
  simp only [pyLower]
  exact pyLowerL_idem s.data

theorem pyLower_length (s : String) : (pyLower s).length = s.length := by
  show (s.data.map pyLowerChar).length = s.data.length
  exact List.length_map s.data pyLowerChar

theorem hasInfixL_singleton (c : Char) (l : List Char) :
    hasInfixL [c] l = true ↔ c ∈ l := by
  induction l with
  | nil =>
    rw [show hasInfixL [c] [] = false from rfl]
    simp
  | cons x xs ih =>
    simp only [hasInfixL, Bool.or_eq_true, List.mem_cons]
    constructor
    · rintro (h | h)
      · left
        simpa [List.isPrefixOf] using h
      · right; exact ih.mp h
    · rintro (rfl | h)
      · left; simp [List.isPrefixOf]
      · right; exact ih.mpr h

theorem mem_insertLe {α : Type} (le : α → α → Bool) (x a : α) (l : List α) :
    a ∈ insertLe le x l ↔ a = x ∨ a ∈ l := by
  induction l with
  | nil => simp [insertLe]
  | cons y ys ih =>
    simp only [insertLe]
    split
    · simp [List.mem_cons]
    · simp only [List.mem_cons, ih]
      tauto

theorem mem_sortLe {α : Type} (le : α → α → Bool) (a : α) (l : List α) :
    a ∈ sortLe le l ↔ a ∈ l := by
  induction l with
  | nil => simp [sortLe]
  | cons y ys ih =>
    simp only [sortLe, List.foldr] at *
    rw [mem_insertLe, ih, List.mem_cons]

theorem countP_insertLe {α : Type} (le : α → α → Bool) (p : α → Bool)
    (x : α) (l : List α) :
    (insertLe le x l).countP p = (x :: l).countP p := by
  induction l with
  | nil => simp [insertLe]
  | cons y ys ih =>
    simp only [insertLe]
    split
    · rfl
    · rw [List.countP_cons, List.countP_cons, ih, List.countP_cons,
        List.countP_cons]
      omega

theorem countP_sortLe {α : Type} (le : α → α → Bool) (p : α → Bool)
    (l : List α) : (sortLe le l).countP p = l.countP p := by
  induction l with
  | nil => rfl
  | cons y ys ih =>
    simp only [sortLe, List.foldr] at *
    rw [countP_insertLe, List.countP_cons, List.countP_cons, ih]

-- Lemmas about splitChar / joinChar (Python str.split / str.join).
theorem splitChar_ne_nil (c : Char) (l : List Char) : splitChar c l ≠ [] := by
  induction l with
  | nil => simp [splitChar]
  | cons x xs ih =>
    simp only [splitChar]
    split
    · simp
    · cases h : splitChar c xs with
      | nil => simp
      | cons s rest => simp

theorem splitChar_segs (c : Char) (l : List Char) :
    ∀ s ∈ splitChar c l, c ∉ s ∧ ∀ x ∈ s, x ∈ l := by
  induction l with
  | nil =>
    intro s hs
    simp only [splitChar, List.mem_singleton] at hs
    subst hs
    simp
  | cons x xs ih =>
    intro s hs
    simp only [splitChar] at hs
    by_cases hx : x = c
    · rw [if_pos hx] at hs
      rcases List.mem_cons.mp hs with rfl | hs'
      · exact ⟨by simp, by simp⟩
      · obtain ⟨h1, h2⟩ := ih s hs'
        exact ⟨h1, fun y hy => List.mem_cons_of_mem x (h2 y hy)⟩
    · rw [if_neg hx] at hs
      cases h : splitChar c xs with
      | nil => exact absurd h (splitChar_ne_nil c xs)
      | cons s0 rest =>
        rw [h] at hs
        have hm0 : s0 ∈ splitChar c xs := by
          rw [h]; exact List.mem_cons_self s0 rest
        rcases List.mem_cons.mp hs with rfl | hs'
        · obtain ⟨h1, h2⟩ := ih s0 hm0
          constructor
          · intro hc
            rcases List.mem_cons.mp hc with hcx | hc'
            · exact hx hcx.symm
            · exact h1 hc'
          · intro y hy
            rcases List.mem_cons.mp hy with hyx | hy'
            · exact List.mem_cons.mpr (Or.inl hyx)
            · exact List.mem_cons_of_mem x (h2 y hy')
        · have hm : s ∈ splitChar c xs := by
            rw [h]; exact List.mem_cons_of_mem s0 hs'
          obtain ⟨h1, h2⟩ := ih s hm
          exact ⟨h1, fun y hy => List.mem_cons_of_mem x (h2 y hy)⟩

theorem splitChar_of_not_mem {c : Char} {l : List Char} (h : c ∉ l) :
    splitChar c l = [l] := by
  induction l with
  | nil => rfl
  | cons x xs ih =>
    have hx : ¬ x = c := fun he => h (he ▸ List.mem_cons_self x xs)
    have hxs : c ∉ xs := fun hm => h (List.mem_cons_of_mem x hm)
    simp only [splitChar, if_neg hx, ih hxs]

theorem splitChar_append {c : Char} {s : List Char} (h : c ∉ s)
    (t : List Char) : splitChar c (s ++ c :: t) = s :: splitChar c t := by
  induction s with
  | nil => simp [splitChar]
  | cons y ys ih =>
    have hy : ¬ y = c := fun he => h (he ▸ List.mem_cons_self y ys)
    have hys : c ∉ ys := fun hm => h (List.mem_cons_of_mem y hm)
    simp only [List.cons_append, splitChar, if_neg hy, List.append_eq, ih hys]

theorem splitChar_joinChar {c : Char} :
    ∀ segs : List (List Char), segs ≠ [] → (∀ s ∈ segs, c ∉ s) →
      splitChar c (joinChar c segs) = segs
  | [], h, _ => absurd rfl h
  | [s], _, hall => by
    simp only [joinChar]
    exact splitChar_of_not_mem (hall s (List.mem_singleton_self s))
  | s :: s2 :: rest, _, hall => by
    have hs : c ∉ s := hall s (List.mem_cons_self s (s2 :: rest))
    have hrest : ∀ u ∈ s2 :: rest, c ∉ u :=
      fun u hu => hall u (List.mem_cons_of_mem s hu)
    have ih := splitChar_joinChar (s2 :: rest) (by simp) hrest
    calc splitChar c (joinChar c (s :: s2 :: rest))
        = splitChar c (s ++ c :: joinChar c (s2 :: rest)) := rfl
      _ = s :: splitChar c (joinChar c (s2 :: rest)) := splitChar_append hs _
      _ = s :: s2 :: rest := by rw [ih]

theorem splitChar_two_of_mem {c : Char} {l : List Char} (h : c ∈ l) :
    ∃ p q rest, splitChar c l = p :: q :: rest := by
  induction l with
  | nil => exact absurd h (List.not_mem_nil c)
  | cons x xs ih =>
    by_cases hx : x = c
    · cases hq : splitChar c xs with
      | nil => exact absurd hq (splitChar_ne_nil c xs)
      | cons q rest =>
        refine ⟨[], q, rest, ?_⟩
        simp only [splitChar, if_pos hx, hq]
    · have hxs : c ∈ xs := by
        rcases List.mem_cons.mp h with hcx | hm
        · exact absurd hcx.symm hx
        · exact hm
      obtain ⟨p, q, rest, hpq⟩ := ih hxs
      refine ⟨x :: p, q, rest, ?_⟩
      simp only [splitChar, if_neg hx, hpq]

theorem joinChar_mem {c : Char} {x : Char} :
    ∀ segs : List (List Char), x ∈ joinChar c segs →
      x = c ∨ ∃ s ∈ segs, x ∈ s
  | [], h => absurd h (List.not_mem_nil x)
  | [s], h => Or.inr ⟨s, List.mem_singleton_self s, h⟩
  | s :: s2 :: rest, h => by
    rcases List.mem_append.mp h with hs | ht
    · exact Or.inr ⟨s, List.mem_cons_self s (s2 :: rest), hs⟩
    · rcases List.mem_cons.mp ht with rfl | hj
      · exact Or.inl rfl
      · rcases joinChar_mem (s2 :: rest) hj with h1 | ⟨u, hu, hxu⟩
        · exact Or.inl h1
        · exact Or.inr ⟨u, List.mem_cons_of_mem s hu, hxu⟩

theorem joinChar_sep_mem (c : Char) (s1 s2 : List Char)
    (rest : List (List Char)) : c ∈ joinChar c (s1 :: s2 :: rest) := by
  show c ∈ s1 ++ c :: joinChar c (s2 :: rest)
  exact List.mem_append.mpr (Or.inr (List.mem_cons_self c _))

theorem splitChar_head {c : Char} {l : List Char} {p : List Char}
    {rest : List (List Char)} (h : splitChar c l = p :: rest) :
    ∀ ch, p.head? = some ch → l.head? = some ch := by
  cases l with
  | nil =>
    rw [show splitChar c [] = [[]] from rfl] at h
    injection h with h1 h2
    subst h1
    intro ch hch
    simp at hch
  | cons x xs =>
    by_cases hx : x = c
    · rw [show splitChar c (x :: xs) = [] :: splitChar c xs from by
        simp only [splitChar, if_pos hx]] at h
      injection h with h1 h2
      subst h1
      intro ch hch
      simp at hch
    · cases hq : splitChar c xs with
      | nil => exact absurd hq (splitChar_ne_nil c xs)
      | cons s0 rest0 =>
        rw [show splitChar c (x :: xs) = (x :: s0) :: rest0 from by
          simp only [splitChar, if_neg hx, hq]] at h
        injection h with h1 h2
        intro ch hch
        rw [← h1] at hch
        exact hch

theorem fix_capitalization_eq_core (w : String)
    (h1 : hasInfixStr w "-" = false) (h2 : hasInfixStr w "_" = false) :
    fix_capitalization w = fixCapCore w := by
  unfold fix_capitalization
  rw [h1, h2]
  simp

/-- The source's recursive underscore equation holds of the embedding:
on a hyphen-free word containing '_', the result is the join of
`fix_capitalization parts[0]` with the remaining split segments. -/
theorem fix_capitalization_underscore_eq (w : String)
    (h1 : hasInfixStr w "-" = false) (h2 : hasInfixStr w "_" = true)
    (p : List Char) (rest : List (List Char))
    (hs : splitChar '_' w.data = p :: rest) :
    fix_capitalization w =
      String.mk (joinChar '_' ((fix_capitalization (String.mk p)).data :: rest)) := by
  have hpmem : p ∈ splitChar '_' w.data := by
    rw [hs]; exact List.mem_cons_self p rest
  obtain ⟨hpu, hpchars⟩ := splitChar_segs '_' w.data p hpmem
  have hpd : hasInfixStr (String.mk p) "-" = false := by
    rw [show hasInfixStr (String.mk p) "-" = hasInfixL ['-'] p from rfl]
    by_contra hcon
    have hmem : '-' ∈ p := (hasInfixL_singleton '-' p).mp (by
      cases hval : hasInfixL ['-'] p
      · exact absurd hval hcon
      · rfl)
    have : '-' ∈ w.data := hpchars '-' hmem
    have : hasInfixStr w "-" = true := by
      rw [show hasInfixStr w "-" = hasInfixL ['-'] w.data from rfl]
      exact (hasInfixL_singleton '-' w.data).mpr this
    rw [this] at h1
    exact Bool.noConfusion h1
  have hpu2 : hasInfixStr (String.mk p) "_" = false := by
    rw [show hasInfixStr (String.mk p) "_" = hasInfixL ['_'] p from rfl]
    cases hval : hasInfixL ['_'] p
    · rfl
    · exact absurd ((hasInfixL_singleton '_' p).mp hval) hpu
  have hcore : fix_capitalization (String.mk p) = fixCapCore (String.mk p) :=
    fix_capitalization_eq_core _ hpd hpu2
  rw [hcore]
  unfold fix_capitalization
  rw [h1, h2, hs]
  simp

-- Idempotence development for fix_capitalization.
theorem strAppend_data (a b : String) : (a ++ b).data = a.data ++ b.data := by
  cases a; cases b; rfl

theorem pyLower_data (s : String) : (pyLower s).data = s.data.map pyLowerChar := rfl

theorem capWord_data {c : Char} {rest : List Char} (hc : c ≠ 'ß')
    {w : String} (hw : w.data = c :: rest) :
    (capWord w).data = pyUpperChar c :: rest.map pyLowerChar := by
  unfold capWord
  rw [hw]
  rw [strAppend_data]
  unfold pyUpperCharStr
  rw [if_neg hc]
  rfl

theorem should_be_lowercase_congr (v w : String) (h1 : pyLower v = pyLower w)
    (h2 : v.length = w.length) :
    should_be_lowercase v = should_be_lowercase w := by
  unfold should_be_lowercase
  rw [h1, h2]

theorem capWord_pyLower {c : Char} {rest : List Char} (hc : c ≠ 'ß')
    {w : String} (hw : w.data = c :: rest) :
    pyLower (capWord w) = pyLower w := by
  apply strDataEq
  rw [pyLower_data, pyLower_data, capWord_data hc hw, hw]
  simp only [List.map_cons, pyLowerChar_pyUpperChar, pyLowerL_idem]

theorem capWord_length {c : Char} {rest : List Char} (hc : c ≠ 'ß')
    {w : String} (hw : w.data = c :: rest) :
    (capWord w).length = w.length := by
  show (capWord w).data.length = w.data.length
  rw [capWord_data hc hw, hw]
  simp

theorem fixCapCore_idem (w : String) (hsz : w.data.head? ≠ some 'ß') :
    fixCapCore (fixCapCore w) = fixCapCore w := by
  cases hl : should_be_lowercase w with
  | true =>
    have hc1 : fixCapCore w = pyLower w := by unfold fixCapCore; rw [hl]; simp
    rw [hc1]
    have hcong := should_be_lowercase_congr (pyLower w) w (pyLower_idem w)
      (pyLower_length w)
    unfold fixCapCore
    rw [hcong, hl]
    simp [pyLower_idem]
  | false =>
    have hc1 : fixCapCore w = capWord w := by unfold fixCapCore; rw [hl]; simp
    rw [hc1]
    cases hwd : w.data with
    | nil =>
      have hw : w = "" := strDataEq (by rw [hwd])
      rw [hw]
      decide
    | cons c rest =>
      have hcsz : c ≠ 'ß' := by
        intro hEq
        exact hsz (by rw [hwd, hEq]; rfl)
      have hlow := capWord_pyLower hcsz hwd
      have hlen := capWord_length hcsz hwd
      have hcong := should_be_lowercase_congr (capWord w) w hlow hlen
      unfold fixCapCore
      rw [hcong, hl]
      simp only [Bool.false_eq_true, if_false]
      have hUsz : pyUpperChar c ≠ 'ß' := fun h => hcsz (pyUpperChar_eq_ssharp h)
      apply strDataEq
      rw [capWord_data hUsz (capWord_data hcsz hwd), capWord_data hcsz hwd]
      rw [pyUpperChar_idem, pyLowerL_idem]

theorem fixCapCore_no_sep (w : String) (hsz : w.data.head? ≠ some 'ß')
    {c0 : Char} (hc0 : c0 = '-' ∨ c0 = '_') (hnot : c0 ∉ w.data) :
    c0 ∉ (fixCapCore w).data := by
  unfold fixCapCore
  split
  · rw [pyLower_data]
    intro hm
    obtain ⟨y, hy, hyc⟩ := List.mem_map.mp hm
    exact hnot (pyLowerChar_dash_underscore hc0 hyc ▸ hy)
  · cases hwd : w.data with
    | nil =>
      have : capWord w = "" := by unfold capWord; rw [hwd]
      rw [this]
      simp
    | cons c rest =>
      have hcsz : c ≠ 'ß' := by
        intro hEq
        exact hsz (by rw [hwd, hEq]; rfl)
      rw [capWord_data hcsz hwd]
      intro hm
      rcases List.mem_cons.mp hm with hEq | hm'
      · have : c = c0 := pyUpperChar_dash_underscore hc0 hEq.symm
        exact hnot (by rw [hwd, this]; exact List.mem_cons_self c0 rest)
      · obtain ⟨y, hy, hyc⟩ := List.mem_map.mp hm'
        have : y = c0 := pyLowerChar_dash_underscore hc0 hyc
        exact hnot (by rw [hwd]; exact List.mem_cons_of_mem c (this ▸ hy))

theorem not_mem_of_hasInfix_false {w : String} {c : Char}
    (h : hasInfixStr w (String.mk [c]) = false) : c ∉ w.data := by
  intro hm
  have h2 : hasInfixL [c] w.data = false := h
  rw [(hasInfixL_singleton c w.data).mpr hm] at h2
  exact Bool.noConfusion h2

theorem hasInfix_false_of_not_mem {w : String} {c : Char}
    (h : c ∉ w.data) : hasInfixStr w (String.mk [c]) = false := by
  cases hv : hasInfixStr w (String.mk [c]) with
  | false => rfl
  | true => exact absurd ((hasInfixL_singleton c w.data).mp hv) h

theorem fix_cap_hyphen (w : String) (h : hasInfixStr w "-" = true) :
    fix_capitalization w =
      if strStartsWith (pyLower w) "sich-" = true then pyLower w else w := by
  unfold fix_capitalization
  rw [h]
  simp

theorem fix_cap_underscore (w : String) (h1 : hasInfixStr w "-" = false)
    (h2 : hasInfixStr w "_" = true) {p : List Char}
    {rest : List (List Char)} (hs : splitChar '_' w.data = p :: rest) :
    fix_capitalization w =
      String.mk (joinChar '_' ((fixCapCore (String.mk p)).data :: rest)) := by
  unfold fix_capitalization
  rw [h1, h2, hs]
  simp

theorem fix_capitalization_idem (w : String)
    (hsz : w.data.head? ≠ some 'ß') :
    fix_capitalization (fix_capitalization w) = fix_capitalization w := by
  cases hd : hasInfixStr w "-" with
  | true =>
    cases hsich : strStartsWith (pyLower w) "sich-" with
    | true =>
      have hfix : fix_capitalization w = pyLower w := by
        rw [fix_cap_hyphen w hd, hsich]
        simp
      rw [hfix]
      have hmem : '-' ∈ w.data := (hasInfixL_singleton '-' w.data).mp hd
      have hmem2 : '-' ∈ (pyLower w).data := by
        rw [pyLower_data]
        exact List.mem_map.mpr ⟨'-', hmem, by decide⟩
      have hd2 : hasInfixStr (pyLower w) "-" = true :=
        (hasInfixL_singleton '-' (pyLower w).data).mpr hmem2
      rw [fix_cap_hyphen (pyLower w) hd2, pyLower_idem w, hsich]
      simp
    | false =>
      have hfix : fix_capitalization w = w := by
        rw [fix_cap_hyphen w hd, hsich]
        simp
      rw [hfix, hfix]
  | false =>
    cases hu : hasInfixStr w "_" with
    | false =>
      have hmd : '-' ∉ w.data := not_mem_of_hasInfix_false hd
      have hmu : '_' ∉ w.data := not_mem_of_hasInfix_false hu
      have hfix := fix_capitalization_eq_core w hd hu
      rw [hfix]
      have hd2 : hasInfixStr (fixCapCore w) "-" = false :=
        hasInfix_false_of_not_mem
          (fixCapCore_no_sep w hsz (Or.inl rfl) hmd)
      have hu2 : hasInfixStr (fixCapCore w) "_" = false :=
        hasInfix_false_of_not_mem
          (fixCapCore_no_sep w hsz (Or.inr rfl) hmu)
      rw [fix_capitalization_eq_core _ hd2 hu2]
      exact fixCapCore_idem w hsz
    | true =>
      have hmd : '-' ∉ w.data := not_mem_of_hasInfix_false hd
      have hmem : '_' ∈ w.data := (hasInfixL_singleton '_' w.data).mp hu
      obtain ⟨p0, q0, rest0, hsplit⟩ := splitChar_two_of_mem hmem
      rw [fix_cap_underscore w hd hu hsplit]
      have hpmem : p0 ∈ splitChar '_' w.data := by
        rw [hsplit]; exact List.mem_cons_self p0 (q0 :: rest0)
      obtain ⟨hpu, hpchars⟩ := splitChar_segs '_' w.data p0 hpmem
      have hpd : '-' ∉ p0 := fun hm => hmd (hpchars '-' hm)
      have hphead : (String.mk p0).data.head? ≠ some 'ß' := by
        show p0.head? ≠ some 'ß'
        intro hh
        exact hsz (splitChar_head hsplit 'ß' hh)
      have hqd : '-' ∉ (fixCapCore (String.mk p0)).data :=
        fixCapCore_no_sep (String.mk p0) hphead (Or.inl rfl) hpd
      have hqu : '_' ∉ (fixCapCore (String.mk p0)).data :=
        fixCapCore_no_sep (String.mk p0) hphead (Or.inr rfl) hpu
      have hsegs : ∀ s ∈ q0 :: rest0, '_' ∉ s ∧ ∀ x ∈ s, x ∈ w.data := by
        intro s hs0
        have hsm : s ∈ splitChar '_' w.data := by
          rw [hsplit]; exact List.mem_cons_of_mem p0 hs0
        exact splitChar_segs '_' w.data s hsm
      have hrd : hasInfixStr
          (String.mk (joinChar '_' ((fixCapCore (String.mk p0)).data :: q0 :: rest0)))
          "-" = false := by
        apply hasInfix_false_of_not_mem
        show '-' ∉ joinChar '_' ((fixCapCore (String.mk p0)).data :: q0 :: rest0)
        intro hm
        rcases joinChar_mem _ hm with hEq | ⟨s, hsm, hxs⟩
        · exact absurd hEq (by decide)
        · rcases List.mem_cons.mp hsm with rfl | hsm'
          · exact hqd hxs
          · exact hmd ((hsegs s hsm').2 '-' hxs)
      have hru : hasInfixStr
          (String.mk (joinChar '_' ((fixCapCore (String.mk p0)).data :: q0 :: rest0)))
          "_" = true := by
        apply (hasInfixL_singleton '_' _).mpr
        show '_' ∈ joinChar '_' ((fixCapCore (String.mk p0)).data :: q0 :: rest0)
        exact joinChar_sep_mem '_' _ q0 rest0
      have hrs : splitChar '_'
          (String.mk (joinChar '_' ((fixCapCore (String.mk p0)).data :: q0 :: rest0))).data =
          (fixCapCore (String.mk p0)).data :: q0 :: rest0 := by
        show splitChar '_' (joinChar '_' _) = _
        apply splitChar_joinChar
        · simp
        · intro s hsm
          rcases List.mem_cons.mp hsm with rfl | hsm'
          · exact hqu
          · exact (hsegs s hsm').1
      rw [fix_cap_underscore _ hrd hru hrs]
      rw [mk_data (fixCapCore (String.mk p0)), fixCapCore_idem _ hphead]

theorem lookupCand_mem {l : List String} {M : Finset String} {r : String}
    (h : lookupCand l M = some r) : r ∈ M := by
  induction l with
  | nil => exact Option.noConfusion h
  | cons x rest ih =>
    unfold lookupCand at h
    split_ifs at h with h1 h2
    · injection h with h3
      subst h3
      exact h1
    · injection h with h3
      subst h3
      exact h2
    · exact ih h

theorem lookupCand_isSome (l : List String) (M : Finset String)
    (h : ∃ c ∈ l, c ∈ M ∨ pyCapFirst c ∈ M) :
    ∃ r, lookupCand l M = some r ∧ r ∈ M := by
  induction l with
  | nil =>
    obtain ⟨c, hc, _⟩ := h
    exact absurd hc (List.not_mem_nil c)
  | cons x rest ih =>
    by_cases hx : x ∈ M
    · exact ⟨x, by unfold lookupCand; rw [if_pos hx], hx⟩
    · by_cases hcap : pyCapFirst x ∈ M
      · exact ⟨pyCapFirst x,
          by unfold lookupCand; rw [if_neg hx, if_pos hcap], hcap⟩
      · obtain ⟨c, hc, hcm⟩ := h
        rcases List.mem_cons.mp hc with rfl | hc'
        · rcases hcm with h1 | h1
          · exact absurd h1 hx
          · exact absurd h1 hcap
        · obtain ⟨r, hr, hrM⟩ := ih ⟨c, hc', hcm⟩
          exact ⟨r, by unfold lookupCand; rw [if_neg hx, if_neg hcap]; exact hr,
            hrM⟩

theorem genStep_head (o n x : String) (rest : List String) :
    ∃ t, genStep o n (x :: rest) = x :: t := by
  unfold genStep
  cases hinf : hasInfixStr x o with
  | true =>
    refine ⟨strReplace x o n :: genStep o n rest, ?_⟩
    simp
  | false =>
    refine ⟨genStep o n rest, ?_⟩
    simp

theorem candidatesOf_head (w : String) : ∃ t, candidatesOf w = w :: t := by
  show ∃ t, genStep "ss" "ß"
    (genStep "oe" "ö" (genStep "ue" "ü" (genStep "ae" "ä" [w]))) = w :: t
  obtain ⟨t1, h1⟩ := genStep_head "ae" "ä" w []
  rw [h1]
  obtain ⟨t2, h2⟩ := genStep_head "ue" "ü" w t1
  rw [h2]
  obtain ⟨t3, h3⟩ := genStep_head "oe" "ö" w t2
  rw [h3]
  exact genStep_head "ss" "ß" w t3

theorem genStep_mem (o n : String) (b : Bool) (cs : List String) :
    ∀ c ∈ cs, applyRep c o n b ∈ genStep o n cs := by
  induction cs with
  | nil => intro c hc; exact absurd hc (List.not_mem_nil c)
  | cons x rest ih =>
    intro c hc
    rcases List.mem_cons.mp hc with rfl | hc'
    · unfold applyRep genStep
      cases hinf : hasInfixStr c o with
      | true => cases b <;> simp
      | false => simp
    · have hmem := ih c hc'
      unfold genStep
      cases hinf : hasInfixStr x o with
      | true => simp [hmem]
      | false => simp [hmem]

theorem applyPicks_mem_candidatesOf (w : String) (b1 b2 b3 b4 : Bool) :
    applyPicks w b1 b2 b3 b4 ∈ candidatesOf w := by
  show applyPicks w b1 b2 b3 b4 ∈ genStep "ss" "ß"
    (genStep "oe" "ö" (genStep "ue" "ü" (genStep "ae" "ä" [w])))
  unfold applyPicks
  apply genStep_mem
  apply genStep_mem
  apply genStep_mem
  apply genStep_mem
  exact List.mem_singleton_self w

theorem restore_umlauts_idem_helper (w : String) (M : Finset String) :
    restore_umlauts (restore_umlauts w M) M = restore_umlauts w M := by
  cases h : lookupCand (candidatesOf w) M with
  | none =>
    have hw : restore_umlauts w M = w := by
      unfold restore_umlauts; rw [h]; rfl
    rw [hw]
    exact hw
  | some r =>
    have hw : restore_umlauts w M = r := by
      unfold restore_umlauts; rw [h]; rfl
    have hrM : r ∈ M := lookupCand_mem h
    rw [hw]
    obtain ⟨t, ht⟩ := candidatesOf_head r
    unfold restore_umlauts
    rw [ht]
    unfold lookupCand
    rw [if_pos hrM]
    rfl

/-- C10: for every word and master set, `restore_umlauts` returns either
the input unchanged or a member of the master set (found directly or via
its first-letter-capitalised form, in which case the capitalised form is
returned); it never outputs a modified string outside the master set. -/
theorem restore_umlauts_id_or_master (w : String) (M : Finset String) :
    restore_umlauts w M = w ∨ restore_umlauts w M ∈ M := by
  cases h : lookupCand (candidatesOf w) M with
  | none =>
    left
    unfold restore_umlauts
    rw [h]
    rfl
  | some r =>
    right
    have hw : restore_umlauts w M = r := by
      unfold restore_umlauts; rw [h]; rfl
    rw [hw]
    exact lookupCand_mem h

/-- C3 counterexample: umlaut restoration does not substitute individual
digraph occurrences.  For the word "aeae" (which is "ae" ++ "ae"),
substituting only the first occurrence of ae yields "äae" ("ä" ++ "ae"),
a master-set member; yet `restore_umlauts` returns "aeae" unchanged —
`str.replace` substitutes all occurrences of a digraph at once, so "äae"
is never generated and the returned lemma is not a master-set member. -/
theorem restore_umlauts_occurrence_cex :
    ("aeae" : String) = "ae" ++ "ae" ∧
    ("äae" : String) = "ä" ++ "ae" ∧
    "äae" ∈ ({"äae"} : Finset String) ∧
    restore_umlauts "aeae" {"äae"} = "aeae" ∧
    "aeae" ∉ ({"äae"} : Finset String) := by decide

/-- C3 (amended): umlaut restoration generates its candidates by
substituting, for each digraph type ae→ä, ue→ü, oe→ö, ss→ß in that order,
either all of its occurrences or none (every subset of digraph types);
each candidate is tested as given and with only the first character
upper-cased, and the first hit in generation order is returned.  Hence
whenever substituting some subset of digraph types (all occurrences of
each chosen type) yields a master-set member, directly or first-letter-
capitalised, the returned lemma is a master-set member. -/
theorem restore_umlauts_type_subset_hits (w : String) (M : Finset String)
    (b1 b2 b3 b4 : Bool)
    (h : applyPicks w b1 b2 b3 b4 ∈ M ∨
      pyCapFirst (applyPicks w b1 b2 b3 b4) ∈ M) :
    restore_umlauts w M ∈ M := by
  obtain ⟨r, hr, hrM⟩ := lookupCand_isSome (candidatesOf w) M
    ⟨applyPicks w b1 b2 b3 b4, applyPicks_mem_candidatesOf w b1 b2 b3 b4, h⟩
  unfold restore_umlauts
  rw [hr]
  exact hrM

/-- Witness for the C3 amended theorem: substituting the ue digraph of
"gruen" gives "grün", a master-set member, and `restore_umlauts` indeed
returns a master-set member. -/
theorem restore_umlauts_type_subset_hits_witness :
    restore_umlauts "gruen" {"grün"} ∈ ({"grün"} : Finset String) :=
  restore_umlauts_type_subset_hits "gruen" {"grün"} false true false false
    (Or.inl (by decide))

/-- C9 counterexample: the Normalizer is not idempotent on words whose
first character is 'ß', because Python upcases 'ß' to "SS":
`fix_capitalization "ßt" = "SSt"` but `fix_capitalization "SSt" = "Sst"`. -/
theorem fix_capitalization_not_idem_cex :
    fix_capitalization (fix_capitalization "ßt") ≠ fix_capitalization "ßt" ∧
    fix_capitalization "ßt" = "SSt" ∧
    fix_capitalization "SSt" = "Sst" := by decide

/-- C9 (amended): `restore_umlauts` is idempotent for every lemma and
master set, and `fix_capitalization` is idempotent for every lemma whose
first character is not 'ß' (Python upcases 'ß' to "SS", breaking
idempotence exactly there). -/
theorem normalizer_idem :
    (∀ (w : String) (M : Finset String),
      restore_umlauts (restore_umlauts w M) M = restore_umlauts w M) ∧
    (∀ w : String, w.data.head? ≠ some 'ß' →
      fix_capitalization (fix_capitalization w) = fix_capitalization w) :=
  ⟨restore_umlauts_idem_helper, fix_capitalization_idem⟩

/-- Witness for the C9 amended theorem at concrete inputs. -/
theorem normalizer_idem_witness :
    (restore_umlauts (restore_umlauts "gruen" {"grün"}) {"grün"} =
      restore_umlauts "gruen" {"grün"}) ∧
    ("laufen" : String).data.head? ≠ some 'ß' ∧
    fix_capitalization (fix_capitalization "laufen") =
      fix_capitalization "laufen" :=
  ⟨normalizer_idem.1 "gruen" {"grün"}, by decide,
    normalizer_idem.2 "laufen" (by decide)⟩

/-- C5: the infinitive-suffix heuristic of `should_be_lowercase` is
written with literal leading hyphens (`endswith(('-en', '-ern',
'-ieren'))`), while hyphenated words return from `fix_capitalization`
before ever reaching it; so the hyphen-free infinitive "tanzen" (6
characters, ending in "en", not in the hard-coded list) is not classified
as a non-noun and is capitalised to "Tanzen".  The spec's two examples
laufen→laufen (via the hard-coded list) and tisch→Tisch do hold. -/
theorem fix_capitalization_suffix_dead :
    fix_capitalization "tanzen" = "Tanzen" ∧
    should_be_lowercase "tanzen" = false ∧
    strEndsWith (pyLower "tanzen") "en" = true ∧
    fix_capitalization "laufen" = "laufen" ∧
    fix_capitalization "tisch" = "Tisch" := by decide

theorem rows_setRows (s : VState) (l0 : Level) (rs : List Row) (l : Level) :
    (s.setRows l0 rs).rows l = if l = l0 then rs else s.rows l := by
  cases l0 <;> cases l <;> rfl

theorem lemmas_add_sub (s : VState) (level : Level)
    (word translation : String) (l : Level) (w : String)
    (h : w ∈ lemmasOf (add_word s level word translation) l) :
    w ∈ lemmasOf s l := by
  unfold add_word at h
  split at h
  · exact h
  · split at h
    · exact h
    · unfold lemmasOf at h ⊢
      rw [rows_setRows] at h
      by_cases hl : l = level
      · rw [if_pos hl] at h
        subst hl
        obtain ⟨r, hr, hrw⟩ := List.mem_map.mp h
        exact List.mem_map.mpr ⟨r, (mem_sortLe rowLe r (s.rows l)).mp hr, hrw⟩
      · rw [if_neg hl] at h
        exact h

theorem lemmas_removeStep_sub (word : String) (st : VState) (l0 l : Level)
    (w : String) (h : w ∈ lemmasOf (removeStep word st l0) l) :
    w ∈ lemmasOf st l := by
  unfold removeStep at h
  split at h
  · unfold lemmasOf at h ⊢
    rw [rows_setRows] at h
    by_cases hl : l = l0
    · rw [if_pos hl] at h
      subst hl
      obtain ⟨r, hr, hrw⟩ := List.mem_map.mp h
      exact List.mem_map.mpr ⟨r, List.mem_of_mem_filter hr, hrw⟩
    · rw [if_neg hl] at h
      exact h
  · exact h

theorem lemmas_remove_sub (s : VState) (word : String) (l : Level)
    (w : String) (h : w ∈ lemmasOf (remove_word s word) l) :
    w ∈ lemmasOf s l := by
  unfold remove_word at h
  suffices haux : ∀ (lvls : List Level) (st : VState),
      w ∈ lemmasOf (lvls.foldl (removeStep word) st) l → w ∈ lemmasOf st l
    from haux LEVELS s h
  intro lvls
  induction lvls with
  | nil => intro st h0; exact h0
  | cons x xs ih =>
    intro st h0
    exact lemmas_removeStep_sub word st x l w (ih (removeStep word st x) h0)

theorem move_word_eq_of_find (s : VState) (word : String) (target : Level)
    (current : Level) (rest : List Level)
    (hf : find_word s word = current :: rest) :
    move_word s word target =
      if (current :: rest).contains target then s
      else
        add_word (remove_word s word) target word
          (((((s.rows current).filter (fun r => r.1 == word)).head?).map
            Prod.snd).getD "") := by
  unfold move_word
  rw [hf]

theorem move_word_eq_nil (s : VState) (word : String) (target : Level)
    (hf : find_word s word = []) : move_word s word target = s := by
  unfold move_word
  rw [hf]

theorem lemmas_move_sub (s : VState) (word : String) (target : Level)
    (l : Level) (w : String)
    (h : w ∈ lemmasOf (move_word s word target) l) : w ∈ lemmasOf s l := by
  cases hf : find_word s word with
  | nil =>
    rw [move_word_eq_nil s word target hf] at h
    exact h
  | cons current rest =>
    rw [move_word_eq_of_find s word target current rest hf] at h
    by_cases hct : (current :: rest).contains target = true
    · rw [if_pos hct] at h
      exact h
    · rw [if_neg hct] at h
      exact lemmas_remove_sub s word l w
        (lemmas_add_sub (remove_word s word) target word _ l w h)

theorem lemmas_applyOp_sub (s : VState) (op : MutOp) (l : Level)
    (w : String) (h : w ∈ lemmasOf (applyOp s op) l) : w ∈ lemmasOf s l := by
  cases op with
  | add lv wd tr => exact lemmas_add_sub s lv wd tr l w h
  | remove wd => exact lemmas_remove_sub s wd l w h
  | move wd lv => exact lemmas_move_sub s wd lv l w h

theorem lemmas_runOps_sub (ops : List MutOp) (s : VState) (l : Level)
    (w : String) (h : w ∈ lemmasOf (runOps s ops) l) : w ∈ lemmasOf s l := by
  induction ops generalizing s with
  | nil => exact h
  | cons op rest ih =>
    exact lemmas_applyOp_sub s op l w (ih (applyOp s op) h)

/-- C8: starting from any state whose five lemma sets are pairwise
disjoint, any sequence of Mutation API operations (`add`, `move`,
`remove`) preserves pairwise disjointness.  In this code base the result
is immediate because no operation ever grows a level's lemma set —
`add_word` never concatenates its `new_row` (cf. `add_word_never_inserts`)
— and even the intended insertion is guarded by a global `find_word`
uniqueness check. -/
theorem mutation_ops_preserve_disjoint (ops : List MutOp) (s : VState)
    (h : pairwiseDisjoint s) : pairwiseDisjoint (runOps s ops) := by
  intro l1 l2 hne w hw1 hw2
  exact h l1 l2 hne w (lemmas_runOps_sub ops s l1 w hw1)
    (lemmas_runOps_sub ops s l2 w hw2)

/-- Witness for C8 at a concrete state and operation sequence. -/
theorem mutation_ops_preserve_disjoint_witness :
    pairwiseDisjoint ⟨[("Haus", "casa")], [("alt", "viejo")], [], [], []⟩ ∧
    pairwiseDisjoint (runOps
      ⟨[("Haus", "casa")], [("alt", "viejo")], [], [], []⟩
      [MutOp.move "Haus" Level.B1, MutOp.add Level.A2 "neu" "nuevo",
        MutOp.remove "alt"]) :=
  ⟨by decide, mutation_ops_preserve_disjoint _ _ (by decide)⟩

/-- C1: `add_word` never inserts the new entry.  On an empty lexicon,
adding ("Haus", "casa") to A1 passes both guards (the word exists
nowhere and contains no space), yet the state is unchanged and A1 does
not contain the entry; likewise with a nonempty A1 the level keeps
exactly its prior rows.  The source builds `new_row` but never
concatenates it to the dataframe. -/
theorem add_word_never_inserts :
    find_word ⟨[], [], [], [], []⟩ "Haus" = [] ∧
    ("Haus" : String).data.contains ' ' = false ∧
    add_word ⟨[], [], [], [], []⟩ Level.A1 "Haus" "casa" =
      ⟨[], [], [], [], []⟩ ∧
    (("Haus", "casa") ∈
      (add_word ⟨[], [], [], [], []⟩ Level.A1 "Haus" "casa").a1 → False) ∧
    add_word ⟨[("Zug", "tren")], [], [], [], []⟩ Level.A1 "Haus" "casa" =
      ⟨[("Zug", "tren")], [], [], [], []⟩ := by decide

theorem mem_sortRows (a : Row) (l : List Row) : a ∈ sortRows l ↔ a ∈ l :=
  mem_sortLe rowLe a l

theorem fix_b2_fst (master a1 a2 b1 c1 : Finset String) (b2rows : List Row) :
    (fix_b2 master a1 a2 b1 c1 b2rows).1 =
      sortRows (b2rows.filter
        (fun r => decide (r.1 ∈ b2Target master a1 a2 b1 c1))) := rfl

theorem fix_b2_snd (master a1 a2 b1 c1 : Finset String) (b2rows : List Row) :
    (fix_b2 master a1 a2 b1 c1 b2rows).2 =
      if ((fix_b2 master a1 a2 b1 c1 b2rows).1.map Prod.fst).toFinset =
          b2Target master a1 a2 b1 c1 then 0 else 1 := rfl

theorem b2Target_eq_sdiff_union (master a1 a2 b1 c1 : Finset String) :
    b2Target master a1 a2 b1 c1 = master \ (a1 ∪ a2 ∪ b1 ∪ c1) := by
  unfold b2Target
  ext x
  simp only [Finset.mem_sdiff, Finset.mem_union]
  tauto

/-- C7: the exit code of `fix_b2` is 0 exactly when the written B2
membership equals the computed target set (the master set minus the union
of the other four levels' memberships); any divergence yields exit code
1. -/
theorem fix_b2_exit_iff (master a1 a2 b1 c1 : Finset String)
    (b2rows : List Row) :
    (fix_b2 master a1 a2 b1 c1 b2rows).2 = 0 ↔
      ((fix_b2 master a1 a2 b1 c1 b2rows).1.map Prod.fst).toFinset =
        master \ (a1 ∪ a2 ∪ b1 ∪ c1) := by
  rw [fix_b2_snd, ← b2Target_eq_sdiff_union]
  split
  · rename_i hEq
    exact iff_of_true rfl hEq
  · rename_i hne
    constructor
    · intro h0
      exact absurd h0 (by decide)
    · intro hEq
      exact absurd hEq hne

/-- C2 counterexample: `fix_b2` never inserts missing target words.  With
master {"a","b"}, the other levels empty and prior B2 = [("a","x")], the
target is {"a","b"} but the resulting rows are exactly [("a","x")]: no
("b", "") row is inserted, the resulting membership {"a"} differs from
the target, and the run exits 1. -/
theorem fix_b2_no_insertion_cex :
    (fix_b2 {"a", "b"} ∅ ∅ ∅ ∅ [("a", "x")]).1 = [("a", "x")] ∧
    ((fix_b2 {"a", "b"} ∅ ∅ ∅ ∅ [("a", "x")]).1.map Prod.fst).toFinset ≠
      ({"a", "b"} : Finset String) \ (∅ ∪ ∅ ∪ ∅ ∪ ∅) ∧
    (fix_b2 {"a", "b"} ∅ ∅ ∅ ∅ [("a", "x")]).2 = 1 := by decide

/-- C2 (amended): after `fix_b2`, B2's membership equals the prior B2
membership intersected with the target set (master minus the union of the
other four levels): rows outside the target are removed, every kept row
is a prior row (translations preserved), and no row is inserted; target
words missing from the prior B2 are not added (they instead make the
post-write verification fail, cf. `fix_b2_exit_iff`). -/
theorem fix_b2_filters_prior (master a1 a2 b1 c1 : Finset String)
    (rows : List Row) :
    (((fix_b2 master a1 a2 b1 c1 rows).1.map Prod.fst).toFinset =
      (rows.map Prod.fst).toFinset ∩ (master \ (a1 ∪ a2 ∪ b1 ∪ c1))) ∧
    ∀ r ∈ (fix_b2 master a1 a2 b1 c1 rows).1, r ∈ rows := by
  constructor
  · rw [fix_b2_fst, ← b2Target_eq_sdiff_union]
    ext x
    simp only [List.mem_toFinset, List.mem_map, mem_sortRows,
      List.mem_filter, decide_eq_true_eq, Finset.mem_inter]
    constructor
    · rintro ⟨r, ⟨hr, ht⟩, rfl⟩
      exact ⟨⟨r, hr, rfl⟩, ht⟩
    · rintro ⟨⟨r, hr, hrx⟩, ht⟩
      exact ⟨r, ⟨hr, by rw [hrx]; exact ht⟩, hrx⟩
  · intro r hr
    rw [fix_b2_fst] at hr
    exact List.mem_of_mem_filter ((mem_sortRows r _).mp hr)

/-- Witness for the C2 amended theorem at a concrete instance. -/
theorem fix_b2_filters_prior_witness :
    (((fix_b2 {"a"} ∅ ∅ ∅ ∅ [("a", "x"), ("b", "y")]).1.map
        Prod.fst).toFinset =
      ([("a", "x"), ("b", "y")].map Prod.fst).toFinset ∩
        (({"a"} : Finset String) \ (∅ ∪ ∅ ∪ ∅ ∪ ∅))) ∧
    ("a", "x") ∈ [(("a" : String), ("x" : String)), ("b", "y")] :=
  ⟨(fix_b2_filters_prior {"a"} ∅ ∅ ∅ ∅ [("a", "x"), ("b", "y")]).1,
    (fix_b2_filters_prior {"a"} ∅ ∅ ∅ ∅ [("a", "x"), ("b", "y")]).2
      ("a", "x") (by decide)⟩

theorem goetheRow_fst (a2rows : List Row) (gw : String) :
    (goetheRow a2rows gw).1 = gw := by
  unfold goetheRow
  cases lookupA2 a2rows (pyLower gw) with
  | none => rfl
  | some row =>
    show (if (pyStrip row.2 != "" &&
        !(strStartsWith (pyStrip row.2) PLACEHOLDER_PREFIX)) = true
      then (gw, pyStrip row.2) else (gw, "")).1 = gw
    by_cases hc : (pyStrip row.2 != "" &&
        !(strStartsWith (pyStrip row.2) PLACEHOLDER_PREFIX)) = true
    · rw [if_pos hc]
    · rw [if_neg hc]

theorem sync_foldl (a2rows : List Row) (l : List String) (acc : List Row) :
    l.foldl (fun new_a2 gw =>
      match lookupA2 a2rows (pyLower gw) with
      | some row =>
        if pyStrip row.2 != "" &&
            !(strStartsWith (pyStrip row.2) PLACEHOLDER_PREFIX) then
          new_a2 ++ [(gw, pyStrip row.2)]
        else new_a2 ++ [(gw, "")]
      | none => new_a2 ++ [(gw, "")]) acc =
      acc ++ l.map (goetheRow a2rows) := by
  induction l generalizing acc with
  | nil => simp
  | cons gw rest ih =>
    rw [List.foldl_cons, List.map_cons, ih]
    cases h : lookupA2 a2rows (pyLower gw) with
    | none => simp [goetheRow, h]
    | some row =>
      by_cases hc : (pyStrip row.2 != "" &&
          !(strStartsWith (pyStrip row.2) PLACEHOLDER_PREFIX)) = true
      · simp [goetheRow, h, hc]
      · simp [goetheRow, h, hc]

theorem sync_eq_map (goethe : List String) (a2rows : List Row) :
    sync_a2_with_goethe goethe a2rows =
      (sortLe strKeyLe goethe).map (goetheRow a2rows) := by
  unfold sync_a2_with_goethe
  rw [sync_foldl]
  simp

/-- C4: the merge against an external authoritative word list.  The
output is exactly one row per word of the (duplicate-free) external list:
the row's lemma is the external list's form (its capitalisation), and its
translation is the stored one (matched case-insensitively on the stripped,
lower-cased lemma) when that is nonempty and not a "[TODO" placeholder,
else empty (`goetheRow`); every output lemma comes from the external
list, so local words absent from it are dropped. -/
theorem sync_a2_with_goethe_spec (goethe : List String) (a2rows : List Row)
    (hnd : goethe.Nodup) :
    (sync_a2_with_goethe goethe a2rows =
      (sortLe strKeyLe goethe).map (goetheRow a2rows)) ∧
    (∀ r ∈ sync_a2_with_goethe goethe a2rows, r.1 ∈ goethe) ∧
    (∀ gw ∈ goethe,
      (sync_a2_with_goethe goethe a2rows).countP (fun r => r.1 == gw) = 1) := by
  refine ⟨sync_eq_map goethe a2rows, ?_, ?_⟩
  · intro r hr
    rw [sync_eq_map] at hr
    obtain ⟨gw, hgw, hrw⟩ := List.mem_map.mp hr
    rw [← hrw, goetheRow_fst]
    exact (mem_sortLe strKeyLe gw goethe).mp hgw
  · intro gw hgw
    rw [sync_eq_map, List.countP_map]
    have hcong : ∀ x ∈ sortLe strKeyLe goethe,
        (((fun r : Row => r.1 == gw) ∘ goetheRow a2rows) x = true ↔
          (fun y : String => y == gw) x = true) := by
      intro x _
      simp [Function.comp, goetheRow_fst]
    rw [List.countP_congr hcong, countP_sortLe]
    have : goethe.countP (fun x => x == gw) = goethe.count gw := rfl
    rw [this]
    exact List.count_eq_one_of_mem hnd hgw

/-- Witness for C4 at a concrete external list and data set. -/
theorem sync_a2_with_goethe_spec_witness :
    (sync_a2_with_goethe ["Haus", "alt"] [("haus", " casa ")]).countP
      (fun r => r.1 == "Haus") = 1 :=
  (sync_a2_with_goethe_spec ["Haus", "alt"] [("haus", " casa ")]
    (by decide)).2.2 "Haus" (by decide)

theorem mem_ite_singleton {α : Type} (c : Prop) [Decidable c] (a b : α) :
    (a ∈ if c then [b] else []) ↔ c ∧ a = b := by
  split
  · rename_i hc
    simp [hc]
  · rename_i hc
    simp [hc]

theorem pew_iff_core (lem trans : String) (master : Finset String) :
    "Possible English Word" ∈ rowIssuesCore lem trans master ↔
      (pyLower lem ∈ ENGLISH_STOPWORDS ∧ pyLower lem ∉ VALID_HOMOGRAPHS ∧
        lem ∉ master) := by
  unfold rowIssuesCore
  split
  · rename_i h0
    simp only [List.mem_singleton]
    constructor
    · intro h
      exact absurd h (by decide)
    · rintro ⟨hs, -, -⟩
      rcases h0 with rfl | rfl
      · exact absurd hs (by decide)
      · exact absurd hs (by decide)
  · simp only [List.mem_append, mem_ite_singleton]
    simp only [
      (by decide : ¬(("Possible English Word" : String) =
        "Too short (Garbage?)")),
      (by decide : ¬(("Possible English Word" : String) =
        "Contains Numbers")),
      (by decide : ¬(("Possible English Word" : String) =
        "Contains Special Chars")),
      (by decide : ¬(("Possible English Word" : String) =
        "MISSING TRANSLATION")),
      (by decide : ¬(("Possible English Word" : String) =
        "Lowercase Lemma (Not in Master)")),
      (by decide : ¬(("Possible English Word" : String) =
        "Potential Umlaut Replacement (ae/ue/oe)")),
      and_false, false_or, or_false, and_true]

/-- C6: a row is reported as "Possible English Word" exactly when the
stripped lemma's lower-cased form is in the English stopword list and it
is neither in the homograph exemption list nor (as stored) in the master
set; in particular "the" is flagged whenever it is absent from the master
set, and "Tag" is never flagged (its case-folded form "tag" is not in the
stopword list, so the check never fires for it). -/
theorem english_word_flag_iff :
    (∀ (lem trans : String) (master : Finset String),
      "Possible English Word" ∈ rowIssues lem trans master ↔
        (pyLower (pyStrip lem) ∈ ENGLISH_STOPWORDS ∧
          pyLower (pyStrip lem) ∉ VALID_HOMOGRAPHS ∧
          pyStrip lem ∉ master)) ∧
    (∀ master : Finset String, "the" ∉ master →
      "Possible English Word" ∈ rowIssues "the" "x" master) ∧
    (∀ (trans : String) (master : Finset String),
      "Possible English Word" ∉ rowIssues "Tag" trans master) := by
  refine ⟨fun lem trans master =>
    pew_iff_core (pyStrip lem) (pyStrip trans) master, ?_, ?_⟩
  · intro master hm
    exact (pew_iff_core (pyStrip "the") (pyStrip "x") master).mpr
      ⟨by decide, by decide, hm⟩
  · intro trans master hmem
    have h := (pew_iff_core (pyStrip "Tag") (pyStrip trans) master).mp hmem
    exact absurd h.1 (by decide)

/-- Witness for C6 at concrete rows and master sets. -/
theorem english_word_flag_iff_witness :
    ("the" ∉ (∅ : Finset String) ∧
      "Possible English Word" ∈ rowIssues "the" "x" ∅) ∧
    "Possible English Word" ∉ rowIssues "Tag" "y" {"Haus"} :=
  ⟨⟨by decide, english_word_flag_iff.2.1 ∅ (by decide)⟩,
    english_word_flag_iff.2.2 "y" {"Haus"}⟩
